import Mathlib

/-!
Verification of the PageRank engine in pagerank.py.

Python dictionaries whose key set is fixed are modelled as a pair of a key
list (`List ℕ`, the dict keys in iteration order, no duplicates) and a total
value function `ℕ → ℚ` (only values at keys are meaningful).  Page
identifiers are natural numbers; the link sets stored as dict values are
`Finset ℕ`.  Arithmetic is exact (`ℚ`).  The uncapped `while True` loop of
`iterate_pagerank` is modelled with explicit fuel, returning `none` when the
fuel runs out, and the random draws of `sample_pagerank` are modelled by an
oracle stream of chosen pages, one per step.
-/

/-- A corpus: the Python dict mapping each page to the set of pages it links
to.  `pages` is the key list (dict keys are distinct); `links` is meaningful
on keys only. -/
structure Corpus where
  pages : List ℕ
  nodup : pages.Nodup
  links : ℕ → Finset ℕ

/-- The key set of the corpus. -/
def Corpus.pageSet (c : Corpus) : Finset ℕ := c.pages.toFinset

/-- `len(corpus)`: the number of pages. -/
def Corpus.N (c : Corpus) : ℕ := c.pages.length

/-- Embedding of `transition_model(corpus, page, damping_factor)`
(pagerank.py lines 51-78).  The Python code initialises a dict with one key
per corpus page, chooses `links = corpus[page]` when that set is non-empty
and the full key set otherwise, and assigns each page `(1-d)/N` plus, when
the page is in `links`, `d/len(links)`.  The returned dict is the pair
(key list, value function). -/
def transition_model (c : Corpus) (page : ℕ) (d : ℚ) : List ℕ × (ℕ → ℚ) :=
  let links := if c.links page = ∅ then c.pageSet else c.links page
  (c.pages, fun p =>
    (1 - d) / (c.N : ℚ) +
      if p ∈ links then d / (links.card : ℚ) else 0)

/-- One pass of the relaxation loop of `iterate_pagerank`
(pagerank.py lines 132-145): the new rank of `page`, computed from the
previous ranks `r` only.  `total` starts at `(1-d)/N`; every corpus page
`q` then contributes `d * (r q / len(corpus[q]))` when `page` is among its
links, and `d * (r q / N)` when its link set is empty. -/
def newRank (c : Corpus) (d : ℚ) (r : ℕ → ℚ) (page : ℕ) : ℚ :=
  (1 - d) / (c.N : ℚ) +
    (c.pages.map (fun q =>
      (if page ∈ c.links q then d * (r q / ((c.links q).card : ℚ)) else 0) +
      (if c.links q = ∅ then d * (r q / (c.N : ℚ)) else 0))).sum

/-- The initial ranks of `iterate_pagerank` (lines 124-126): every page gets
`1/N`. -/
def initRank (c : Corpus) : ℕ → ℚ :=
  fun _ => 1 / (c.N : ℚ)

/-- The convergence scan of `iterate_pagerank` (lines 146-151): walk the
pages in order with a flag, clearing it and breaking at the first page whose
absolute rank change reaches the threshold 0.001. -/
def checkPages (old new : ℕ → ℚ) : List ℕ → Bool
  | [] => true
  | p :: rest => if |new p - old p| ≥ 1 / 1000 then false else checkPages old new rest

/-- The converged flag after the scan over all corpus pages. -/
def convergedCheck (c : Corpus) (old new : ℕ → ℚ) : Bool :=
  checkPages old new c.pages

/-- The `while True` loop of `iterate_pagerank` (lines 131-155), with fuel:
compute `new_page_rank` from `page_ranks`, return `page_ranks` (not the new
ranks) when converged, otherwise replace the old ranks by the new ones and
repeat.  `none` means the fuel ran out before convergence. -/
def iterLoop (c : Corpus) (d : ℚ) : ℕ → (ℕ → ℚ) → Option (ℕ → ℚ)
  | 0, _ => none
  | fuel + 1, r =>
    let nr := newRank c d r
    if convergedCheck c r nr then some r else iterLoop c d fuel nr

/-- Embedding of `iterate_pagerank(corpus, damping_factor)`
(pagerank.py lines 113-156), fuel-indexed.  The returned dict has the corpus
keys and the values the loop returned. -/
def iterate_pagerank (c : Corpus) (d : ℚ) (fuel : ℕ) :
    Option (List ℕ × (ℕ → ℚ)) :=
  (iterLoop c d fuel (initRank c)).map (fun r => (c.pages, r))

/-- Increment one counter of the visit-count dict (line 100). -/
def bump (counts : ℕ → ℕ) (p : ℕ) : ℕ → ℕ :=
  fun q => if q = p then counts q + 1 else counts q

/-- The sampling walk of `sample_pagerank` (lines 99-106): `steps` more
steps remain, the next weighted draw is step `i`, the walk sits at
`working`.  Each step increments the counter of the current page and moves
to the page the oracle `pick` draws (the Python draw is
`random.choices(pages, probabilities)[0]`, always an element of the corpus
key list). -/
def walkCounts (pick : ℕ → ℕ) : ℕ → ℕ → (ℕ → ℕ) → ℕ → (ℕ → ℕ)
  | _, _, counts, 0 => counts
  | i, working, counts, steps + 1 =>
      walkCounts pick (i + 1) (pick i) (bump counts working) steps

/-- Embedding of `sample_pagerank(corpus, damping_factor, n)`
(pagerank.py lines 81-110).  `start` models `random.choice(list(corpus.keys()))`
and `pick i` the weighted draw of step `i`.  On an empty corpus
`random.choice` raises (IndexError); with `n = 0` the final normalisation
loop `page_ranks[page] /= n` raises (ZeroDivisionError) as soon as the
corpus has a page.  Both failures are `none`; otherwise each page's count
over the `n` steps is divided by `n`. -/
def sample_pagerank (c : Corpus) (_d : ℚ) (n : ℕ) (start : ℕ) (pick : ℕ → ℕ) :
    Option (List ℕ × (ℕ → ℚ)) :=
  if c.pages = [] then none
  else if n = 0 then none
  else
    let counts := walkCounts pick 0 start (fun _ => 0) n
    some (c.pages, fun p => (counts p : ℚ) / (n : ℚ))

/-- The recurrence of spec section 4.3, written from the spec words: new rank
= (1−damping)/N + damping · Σ over every page q with p ∈ links(q) of
rank(q)/|links(q)| + damping · Σ over every dangling page q of rank(q)/N. -/
def specNewRank (c : Corpus) (d : ℚ) (r : ℕ → ℚ) (p : ℕ) : ℚ :=
  (1 - d) / (c.N : ℚ) +
    d * ∑ q ∈ c.pageSet.filter (fun q => p ∈ c.links q),
          r q / ((c.links q).card : ℚ) +
    d * ∑ q ∈ c.pageSet.filter (fun q => c.links q = ∅),
          r q / (c.N : ℚ)

/-- The contribution of corpus page `q` to the new rank of `page` in one
relaxation pass, as a function of the previous rank value `x` of `q`. -/
def linkTerm (c : Corpus) (d x : ℚ) (q page : ℕ) : ℚ :=
  (if page ∈ c.links q then d * (x / ((c.links q).card : ℚ)) else 0) +
  (if c.links q = ∅ then d * (x / (c.N : ℚ)) else 0)

/-- Total variation style distance between two rank assignments: the sum of
the absolute per-page differences over the corpus. -/
def dist1 (c : Corpus) (r s : ℕ → ℚ) : ℚ :=
  ∑ p ∈ c.pageSet, |r p - s p|

/-- A two page corpus: 0 ↔ 1. -/
def corpusAB : Corpus :=
  ⟨[0, 1], by decide, fun p => if p = 0 then {1} else if p = 1 then {0} else ∅⟩

/-- A two page corpus where 0 links to 1 and 1 is dangling. -/
def corpusDang : Corpus :=
  ⟨[0, 1], by decide, fun p => if p = 0 then {1} else ∅⟩

/-- A one page corpus whose only page is dangling. -/
def corpusOne : Corpus := ⟨[0], by decide, fun _ => ∅⟩

/-- The empty corpus. -/
def corpusEmpty : Corpus := ⟨[], by decide, fun _ => ∅⟩

lemma Corpus.card_pageSet (c : Corpus) : c.pageSet.card = c.N :=
  List.toFinset_card_of_nodup c.nodup

lemma Corpus.mem_pageSet {c : Corpus} {p : ℕ} : p ∈ c.pageSet ↔ p ∈ c.pages :=
  List.mem_toFinset

lemma newRank_eq (c : Corpus) (d : ℚ) (r : ℕ → ℚ) (p : ℕ) :
    newRank c d r p = (1 - d) / (c.N : ℚ) + ∑ q ∈ c.pageSet, linkTerm c d (r q) q p := by
  unfold newRank linkTerm Corpus.pageSet
  rw [List.sum_toFinset _ c.nodup]

lemma linkTerm_sub (c : Corpus) (d x y : ℚ) (q p : ℕ) :
    linkTerm c d x q p - linkTerm c d y q p = linkTerm c d (x - y) q p := by
  unfold linkTerm
  split_ifs <;> ring

lemma linkTerm_nonneg (c : Corpus) {d x : ℚ} (hd : 0 ≤ d) (hx : 0 ≤ x) (q p : ℕ) :
    0 ≤ linkTerm c d x q p := by
  unfold linkTerm
  have h1 : (0:ℚ) ≤ ((c.links q).card : ℚ) := Nat.cast_nonneg _
  have h2 : (0:ℚ) ≤ (c.N : ℚ) := Nat.cast_nonneg _
  split_ifs <;>
    simp <;>
    positivity

lemma abs_linkTerm_le (c : Corpus) {d : ℚ} (hd : 0 ≤ d) (x : ℚ) (q p : ℕ) :
    |linkTerm c d x q p| ≤ linkTerm c d |x| q p := by
  unfold linkTerm
  refine le_trans (abs_add _ _) (add_le_add ?_ ?_) <;>
  · split_ifs
    · rw [abs_mul, abs_div, abs_of_nonneg hd, Nat.abs_cast]
    · simp

lemma linkTerm_colsum (c : Corpus) (d x : ℚ) {q : ℕ}
    (hq : c.links q ⊆ c.pageSet) (hN : 0 < c.N) :
    ∑ p ∈ c.pageSet, linkTerm c d x q p = d * x := by
  have hNQ : ((c.N : ℚ)) ≠ 0 := by
    exact_mod_cast Nat.pos_iff_ne_zero.mp hN
  unfold linkTerm
  rw [Finset.sum_add_distrib]
  by_cases hqe : c.links q = ∅
  · simp only [hqe, Finset.not_mem_empty, if_false, if_true, Finset.sum_const,
      Finset.sum_const_zero, zero_add, nsmul_eq_mul, Corpus.card_pageSet]
    field_simp
  · have hcard : (c.links q).card ≠ 0 :=
      Finset.card_ne_zero.mpr (Finset.nonempty_iff_ne_empty.mpr hqe)
    have hcardQ : (((c.links q).card : ℕ) : ℚ) ≠ 0 := Nat.cast_ne_zero.mpr hcard
    simp only [hqe, if_false, if_true, Finset.sum_const_zero, add_zero,
      Finset.sum_ite_mem, Finset.inter_eq_right.mpr hq, Finset.sum_const, nsmul_eq_mul]
    field_simp

lemma newRank_sub (c : Corpus) (d : ℚ) (r s : ℕ → ℚ) (p : ℕ) :
    newRank c d r p - newRank c d s p = ∑ q ∈ c.pageSet, linkTerm c d (r q - s q) q p := by
  rw [newRank_eq, newRank_eq, add_sub_add_left_eq_sub, ← Finset.sum_sub_distrib]
  exact Finset.sum_congr rfl fun q _ => linkTerm_sub c d (r q) (s q) q p

/-- One relaxation pass contracts the total variation distance by the
damping factor, on every valid corpus with at least one page. -/
lemma dist1_newRank_le (c : Corpus) {d : ℚ} (r s : ℕ → ℚ)
    (hval : ∀ q ∈ c.pageSet, c.links q ⊆ c.pageSet) (hN : 0 < c.N) (hd : 0 ≤ d) :
    dist1 c (newRank c d r) (newRank c d s) ≤ d * dist1 c r s := by
  unfold dist1
  calc ∑ p ∈ c.pageSet, |newRank c d r p - newRank c d s p|
      = ∑ p ∈ c.pageSet, |∑ q ∈ c.pageSet, linkTerm c d (r q - s q) q p| := by
        exact Finset.sum_congr rfl fun p _ => by rw [newRank_sub]
    _ ≤ ∑ p ∈ c.pageSet, ∑ q ∈ c.pageSet, |linkTerm c d (r q - s q) q p| :=
        Finset.sum_le_sum fun p _ => Finset.abs_sum_le_sum_abs _ _
    _ ≤ ∑ p ∈ c.pageSet, ∑ q ∈ c.pageSet, linkTerm c d |r q - s q| q p :=
        Finset.sum_le_sum fun p _ => Finset.sum_le_sum fun q _ =>
          abs_linkTerm_le c hd (r q - s q) q p
    _ = ∑ q ∈ c.pageSet, ∑ p ∈ c.pageSet, linkTerm c d |r q - s q| q p :=
        Finset.sum_comm
    _ = ∑ q ∈ c.pageSet, d * |r q - s q| :=
        Finset.sum_congr rfl fun q hq => linkTerm_colsum c d _ (hval q hq) hN
    _ = d * ∑ q ∈ c.pageSet, |r q - s q| := (Finset.mul_sum _ _ _).symm

/-- One relaxation pass sends the total rank mass `Σ r` to
`(1 - d) + d * Σ r`, on every valid corpus with at least one page. -/
lemma sum_newRank (c : Corpus) (d : ℚ) (r : ℕ → ℚ)
    (hval : ∀ q ∈ c.pageSet, c.links q ⊆ c.pageSet) (hN : 0 < c.N) :
    ∑ p ∈ c.pageSet, newRank c d r p = (1 - d) + d * ∑ q ∈ c.pageSet, r q := by
  have hNQ : ((c.N : ℚ)) ≠ 0 := by
    exact_mod_cast Nat.pos_iff_ne_zero.mp hN
  calc ∑ p ∈ c.pageSet, newRank c d r p
      = ∑ p ∈ c.pageSet, ((1 - d) / (c.N : ℚ) + ∑ q ∈ c.pageSet, linkTerm c d (r q) q p) :=
        Finset.sum_congr rfl fun p _ => newRank_eq c d r p
    _ = c.pageSet.card • ((1 - d) / (c.N : ℚ)) +
          ∑ p ∈ c.pageSet, ∑ q ∈ c.pageSet, linkTerm c d (r q) q p := by
        rw [Finset.sum_add_distrib, Finset.sum_const]
    _ = (1 - d) + ∑ q ∈ c.pageSet, ∑ p ∈ c.pageSet, linkTerm c d (r q) q p := by
        rw [Finset.sum_comm, Corpus.card_pageSet, nsmul_eq_mul]
        field_simp
    _ = (1 - d) + ∑ q ∈ c.pageSet, d * r q :=
        congrArg _ (Finset.sum_congr rfl fun q hq => linkTerm_colsum c d _ (hval q hq) hN)
    _ = (1 - d) + d * ∑ q ∈ c.pageSet, r q := by rw [Finset.mul_sum]

lemma newRank_nonneg (c : Corpus) {d : ℚ} (r : ℕ → ℚ) (hd : 0 ≤ d)
    (hd1 : d ≤ 1) (hr : ∀ q ∈ c.pageSet, 0 ≤ r q) (p : ℕ) :
    0 ≤ newRank c d r p := by
  rw [newRank_eq]
  have h1 : (0:ℚ) ≤ (1 - d) / (c.N : ℚ) :=
    div_nonneg (by linarith) (Nat.cast_nonneg _)
  exact add_nonneg h1 (Finset.sum_nonneg fun q hq => linkTerm_nonneg c hd (hr q hq) q p)

/-- The flag-and-break scan returns true exactly when every scanned page
moved by strictly less than the threshold. -/
lemma checkPages_eq_true (old new : ℕ → ℚ) (l : List ℕ) :
    checkPages old new l = true ↔ ∀ p ∈ l, |new p - old p| < 1 / 1000 := by
  induction l with
  | nil => simp [checkPages]
  | cons p rest ih =>
      unfold checkPages
      by_cases hp : |new p - old p| ≥ 1 / 1000
      · rw [if_pos hp]
        exact iff_of_false (by simp)
          (fun h => absurd (h p (List.mem_cons_self p rest)) (not_lt.mpr hp))
      · rw [if_neg hp, ih]
        constructor
        · intro h a ha
          rcases List.mem_cons.mp ha with rfl | ha
          · exact lt_of_not_le hp
          · exact h a ha
        · intro h a ha
          exact h a (List.mem_cons_of_mem _ ha)

lemma convergedCheck_eq_true (c : Corpus) (old new : ℕ → ℚ) :
    convergedCheck c old new = true ↔ ∀ p ∈ c.pageSet, |new p - old p| < 1 / 1000 := by
  unfold convergedCheck
  rw [checkPages_eq_true]
  simp only [Corpus.mem_pageSet]

lemma iterLoop_succ (c : Corpus) (d : ℚ) (fuel : ℕ) (r : ℕ → ℚ) :
    iterLoop c d (fuel + 1) r =
      if convergedCheck c r (newRank c d r) then some r
      else iterLoop c d fuel (newRank c d r) := rfl

/-- Whatever the loop returns is an iterate of the update map: the first one
whose own next update moves every page by less than the threshold. -/
lemma iterLoop_some_spec (c : Corpus) (d : ℚ) :
    ∀ (fuel : ℕ) (r res : ℕ → ℚ), iterLoop c d fuel r = some res →
      ∃ k, k < fuel ∧ res = (newRank c d)^[k] r ∧
        convergedCheck c res (newRank c d res) = true ∧
        ∀ j < k, convergedCheck c ((newRank c d)^[j] r) ((newRank c d)^[j + 1] r) = false := by
  intro fuel
  induction fuel with
  | zero => intro r res h; exact absurd h (by simp [iterLoop])
  | succ fuel ih =>
      intro r res h
      rw [iterLoop_succ] at h
      by_cases hc : convergedCheck c r (newRank c d r) = true
      · rw [if_pos hc, Option.some_inj] at h
        subst h
        exact ⟨0, Nat.succ_pos fuel, (Function.iterate_zero_apply _ _).symm, hc,
          fun j hj => absurd hj (Nat.not_lt_zero j)⟩
      · rw [if_neg hc] at h
        obtain ⟨k, hk, hres, hconv, hmin⟩ := ih (newRank c d r) res h
        refine ⟨k + 1, Nat.succ_lt_succ hk, ?_, hconv, ?_⟩
        · rw [hres, Function.iterate_succ_apply]
        · intro j hj
          match j with
          | 0 =>
              simp only [Function.iterate_zero_apply, Function.iterate_one]
              exact Bool.eq_false_iff.mpr hc
          | j + 1 =>
              rw [Function.iterate_succ_apply (newRank c d) j,
                Function.iterate_succ_apply (newRank c d) (j + 1)]
              exact hmin j (Nat.lt_of_succ_lt_succ hj)

/-- If some iterate within the fuel budget passes the convergence test, the
loop returns a value. -/
lemma iterLoop_isSome (c : Corpus) (d : ℚ) :
    ∀ (fuel j : ℕ) (r : ℕ → ℚ), j < fuel →
      convergedCheck c ((newRank c d)^[j] r) (newRank c d ((newRank c d)^[j] r)) = true →
      (iterLoop c d fuel r).isSome = true := by
  intro fuel
  induction fuel with
  | zero => intro j r hj; exact absurd hj (Nat.not_lt_zero j)
  | succ fuel ih =>
      intro j r hj hconv
      rw [iterLoop_succ]
      by_cases hc : convergedCheck c r (newRank c d r) = true
      · rw [if_pos hc]; rfl
      · rw [if_neg hc]
        match j with
        | 0 =>
            simp only [Function.iterate_zero_apply] at hconv
            exact absurd hconv hc
        | j + 1 =>
            refine ih j (newRank c d r) (Nat.lt_of_succ_lt_succ hj) ?_
            rwa [← Function.iterate_succ_apply]

/-- Non-negativity and unit total mass are preserved by every number of
relaxation passes. -/
lemma iterate_newRank_inv (c : Corpus) {d : ℚ} (r : ℕ → ℚ)
    (hval : ∀ q ∈ c.pageSet, c.links q ⊆ c.pageSet) (hN : 0 < c.N)
    (hd : 0 ≤ d) (hd1 : d ≤ 1)
    (hr : ∀ p ∈ c.pageSet, 0 ≤ r p) (hsum : ∑ p ∈ c.pageSet, r p = 1) :
    ∀ k, (∀ p ∈ c.pageSet, 0 ≤ (newRank c d)^[k] r p) ∧
      ∑ p ∈ c.pageSet, (newRank c d)^[k] r p = 1 := by
  intro k
  induction k with
  | zero => exact ⟨hr, hsum⟩
  | succ k ih =>
      obtain ⟨hpos, hsum1⟩ := ih
      constructor
      · intro p _
        rw [Function.iterate_succ_apply']
        exact newRank_nonneg c _ hd hd1 hpos p
      · have := sum_newRank c d ((newRank c d)^[k] r) hval hN
        rw [hsum1, mul_one] at this
        simp only [Function.iterate_succ_apply']
        rw [this]
        ring

lemma sum_bump (c : Corpus) (counts : ℕ → ℕ) {w : ℕ} (hw : w ∈ c.pageSet) :
    ∑ p ∈ c.pageSet, bump counts w p = (∑ p ∈ c.pageSet, counts p) + 1 := by
  have hsplit : ∀ p : ℕ, bump counts w p = counts p + if p = w then 1 else 0 := by
    intro p
    unfold bump
    split_ifs with h
    · subst h; rfl
    · rfl
  simp only [hsplit]
  rw [Finset.sum_add_distrib, Finset.sum_ite_eq' c.pageSet w (fun _ => 1), if_pos hw]

/-- Each walk step increments exactly one tracked counter, so the counters
gain exactly the number of steps taken. -/
lemma walkCounts_sum (c : Corpus) (pick : ℕ → ℕ) (hpick : ∀ i, pick i ∈ c.pages) :
    ∀ (steps i working : ℕ) (counts : ℕ → ℕ), working ∈ c.pages →
      ∑ p ∈ c.pageSet, walkCounts pick i working counts steps p =
        (∑ p ∈ c.pageSet, counts p) + steps := by
  intro steps
  induction steps with
  | zero => intro i working counts _; rfl
  | succ steps ih =>
      intro i working counts hworking
      show ∑ p ∈ c.pageSet, walkCounts pick (i + 1) (pick i) (bump counts working) steps p =
        (∑ p ∈ c.pageSet, counts p) + (steps + 1)
      rw [ih (i + 1) (pick i) (bump counts working) (hpick i),
        sum_bump c counts (Corpus.mem_pageSet.mpr hworking)]
      omega

lemma sum_initRank (c : Corpus) (hN : 0 < c.N) :
    ∑ p ∈ c.pageSet, initRank c p = 1 := by
  have hNQ : ((c.N : ℚ)) ≠ 0 := by
    exact_mod_cast Nat.pos_iff_ne_zero.mp hN
  unfold initRank
  rw [Finset.sum_const, Corpus.card_pageSet, nsmul_eq_mul]
  field_simp

lemma iterate_pagerank_some_elim {c : Corpus} {d : ℚ} {fuel : ℕ} {keys : List ℕ}
    {res : ℕ → ℚ} (h : iterate_pagerank c d fuel = some (keys, res)) :
    keys = c.pages ∧ iterLoop c d fuel (initRank c) = some res := by
  unfold iterate_pagerank at h
  cases hloop : iterLoop c d fuel (initRank c) with
  | none => rw [hloop] at h; exact absurd h (by simp)
  | some r =>
      rw [hloop] at h
      have h3 : some (c.pages, r) = some (keys, res) := h
      have hpair : (c.pages, r) = (keys, res) := Option.some_inj.mp h3
      rw [Prod.mk.injEq] at hpair
      obtain ⟨hk, hr⟩ := hpair
      subst hr
      exact ⟨hk.symm, rfl⟩

/-- C1: for every graph whose link sets are subsets of its key set, every
page that is a key of the graph, and every damping factor in (0,1),
`transition_model` returns a dict whose keys are exactly the corpus keys,
whose values sum to exactly 1, each value being `(1-d)/N` plus, for pages in
the effective link set, `d/|links|`. -/
theorem transition_model_distribution (c : Corpus) (page : ℕ) (d : ℚ)
    (hval : ∀ q ∈ c.pageSet, c.links q ⊆ c.pageSet) (hpage : page ∈ c.pageSet)
    (hd0 : 0 < d) (hd1 : d < 1) :
    (transition_model c page d).1 = c.pages ∧
    ∑ p ∈ c.pageSet, (transition_model c page d).2 p = 1 ∧
    ∀ p : ℕ, (transition_model c page d).2 p =
      (1 - d) / (c.N : ℚ) +
        if p ∈ (if c.links page = ∅ then c.pageSet else c.links page) then
          d / (((if c.links page = ∅ then c.pageSet else c.links page).card : ℕ) : ℚ)
        else 0 := by
  refine ⟨rfl, ?_, fun p => rfl⟩
  have hN : 0 < c.N := by
    rw [← Corpus.card_pageSet]
    exact Finset.card_pos.mpr ⟨page, hpage⟩
  have hNQ : ((c.N : ℚ)) ≠ 0 := by
    exact_mod_cast Nat.pos_iff_ne_zero.mp hN
  set L : Finset ℕ := if c.links page = ∅ then c.pageSet else c.links page with hL
  have hLsub : L ⊆ c.pageSet := by
    rw [hL]
    split_ifs
    · exact subset_rfl
    · exact hval page hpage
  have hLne : L.Nonempty := by
    rw [hL]
    split_ifs with h
    · exact ⟨page, hpage⟩
    · exact Finset.nonempty_iff_ne_empty.mpr h
  have hLcard : ((L.card : ℕ) : ℚ) ≠ 0 :=
    Nat.cast_ne_zero.mpr (Finset.card_ne_zero.mpr hLne)
  show ∑ p ∈ c.pageSet, ((1 - d) / (c.N : ℚ) + if p ∈ L then d / ((L.card : ℕ) : ℚ) else 0) = 1
  rw [Finset.sum_add_distrib, Finset.sum_const, Finset.sum_ite_mem,
    Finset.inter_eq_right.mpr hLsub, Finset.sum_const, Corpus.card_pageSet,
    nsmul_eq_mul, nsmul_eq_mul]
  field_simp

/-- C1 witness: the C1 guarantees evaluated on the two page corpus 0 ↔ 1 at
page 0 with damping 17/20. -/
theorem transition_model_distribution_witness :
    (transition_model corpusAB 0 (17/20)).1 = corpusAB.pages ∧
    ∑ p ∈ corpusAB.pageSet, (transition_model corpusAB 0 (17/20)).2 p = 1 ∧
    ∀ p : ℕ, (transition_model corpusAB 0 (17/20)).2 p =
      (1 - 17/20) / (corpusAB.N : ℚ) +
        if p ∈ (if corpusAB.links 0 = ∅ then corpusAB.pageSet else corpusAB.links 0) then
          (17/20 : ℚ) /
            (((if corpusAB.links 0 = ∅ then corpusAB.pageSet else corpusAB.links 0).card : ℕ) : ℚ)
        else 0 :=
  transition_model_distribution corpusAB 0 (17/20) (by decide) (by decide)
    (by norm_num) (by norm_num)

/-- C2: one pass of the relaxation loop of iterate_pagerank assigns every
page the rank the spec recurrence prescribes, reading every rank on the
right-hand side from the previous iteration's assignment `r` (the loop
recurses on `newRank c d r`, a pure function of `r`: a synchronous Jacobi
update, never a partially updated current pass value). -/
theorem newRank_eq_specNewRank (c : Corpus) (d : ℚ) (r : ℕ → ℚ) (p : ℕ) (fuel : ℕ) :
    newRank c d r p = specNewRank c d r p ∧
    iterLoop c d (fuel + 1) r =
      (if convergedCheck c r (newRank c d r) then some r
       else iterLoop c d fuel (newRank c d r)) := by
  refine ⟨?_, rfl⟩
  rw [newRank_eq]
  unfold specNewRank linkTerm
  rw [Finset.sum_add_distrib]
  simp only [Finset.sum_filter, Finset.mul_sum, mul_ite, mul_zero]
  ring

/-- C3: when the argument page is dangling (its link set is empty),
`transition_model` assigns every corpus page, the dangling page itself
included, probability `(1-d)/N + d/N`, i.e. the uniform `1/N`. -/
theorem transition_model_dangling (c : Corpus) (page : ℕ) (d : ℚ)
    (hpage : page ∈ c.pageSet) (hdangling : c.links page = ∅)
    (hd0 : 0 < d) (hd1 : d < 1) :
    ∀ p ∈ c.pageSet,
      (transition_model c page d).2 p = (1 - d) / (c.N : ℚ) + d / (c.N : ℚ) ∧
      (transition_model c page d).2 p = 1 / (c.N : ℚ) := by
  intro p hp
  have hN : 0 < c.N := by
    rw [← Corpus.card_pageSet]
    exact Finset.card_pos.mpr ⟨page, hpage⟩
  have hNQ : ((c.N : ℚ)) ≠ 0 := by
    exact_mod_cast Nat.pos_iff_ne_zero.mp hN
  have hval : (transition_model c page d).2 p = (1 - d) / (c.N : ℚ) + d / (c.N : ℚ) := by
    show ((1 - d) / (c.N : ℚ) +
      if p ∈ (if c.links page = ∅ then c.pageSet else c.links page) then
        d / (((if c.links page = ∅ then c.pageSet else c.links page).card : ℕ) : ℚ)
      else 0) = (1 - d) / (c.N : ℚ) + d / (c.N : ℚ)
    rw [if_pos hdangling, if_pos hp, Corpus.card_pageSet]
  refine ⟨hval, ?_⟩
  rw [hval]
  field_simp

/-- C3 witness: on the corpus where page 0 links to 1 and page 1 is
dangling, the transition model at page 1 with damping 17/20 gives page 0 the
uniform probability 1/N. -/
theorem transition_model_dangling_witness :
    (transition_model corpusDang 1 (17/20)).2 0 =
      (1 - 17/20) / (corpusDang.N : ℚ) + (17/20) / (corpusDang.N : ℚ) ∧
    (transition_model corpusDang 1 (17/20)).2 0 = 1 / (corpusDang.N : ℚ) :=
  transition_model_dangling corpusDang 1 (17/20) (by decide) (by decide)
    (by norm_num) (by norm_num) 0 (by decide)

/-- C6: the loop exits exactly when every corpus page's absolute rank change
between the previous ranks and the freshly computed ranks is strictly below
the threshold 0.001; otherwise the loop continues with the new ranks in
place of the old ones. -/
theorem iterLoop_exit_condition (c : Corpus) (d : ℚ) (fuel : ℕ) (r : ℕ → ℚ) :
    (convergedCheck c r (newRank c d r) = true ↔
      ∀ p ∈ c.pageSet, |newRank c d r p - r p| < 1 / 1000) ∧
    iterLoop c d (fuel + 1) r =
      (if convergedCheck c r (newRank c d r) then some r
       else iterLoop c d fuel (newRank c d r)) :=
  ⟨convergedCheck_eq_true c r (newRank c d r), rfl⟩

/-- C8 counterexample: called on the empty corpus, iterate_pagerank does not
fail; it returns a result (the loop's convergence scan is vacuous, so the
first pass already converges). -/
theorem iterate_pagerank_empty_counterexample :
    (iterate_pagerank corpusEmpty (17/20) 1).isSome = true := rfl

/-- C8 amended: called on an empty corpus, iterate_pagerank surfaces no
error: every loop over the corpus is vacuous, the convergence test passes on
the first pass, and the empty dict of initial ranks is returned. -/
theorem iterate_pagerank_empty (d : ℚ) (fuel : ℕ) (hfuel : 1 ≤ fuel) :
    iterate_pagerank corpusEmpty d fuel = some ([], initRank corpusEmpty) := by
  match fuel, hfuel with
  | fuel + 1, _ => rfl

/-- C8 amended witness: the empty-corpus run with damping 17/20 and one unit
of fuel returns the empty dict. -/
theorem iterate_pagerank_empty_witness :
    iterate_pagerank corpusEmpty (17/20) 1 = some ([], initRank corpusEmpty) :=
  iterate_pagerank_empty (17/20) 1 (by decide)

/-- C9: called with n = 0 on a non-empty corpus, sample_pagerank fails (the
normalisation loop divides the counters by zero) and returns no result. -/
theorem sample_pagerank_zero_samples (c : Corpus) (d : ℚ) (start : ℕ) (pick : ℕ → ℕ)
    (hne : c.pages ≠ []) (hd0 : 0 < d) (hd1 : d < 1) :
    sample_pagerank c d 0 start pick = none := by
  unfold sample_pagerank
  rw [if_neg hne, if_pos rfl]

/-- C9 witness: sampling with n = 0 on the two page corpus fails. -/
theorem sample_pagerank_zero_samples_witness :
    sample_pagerank corpusAB (17/20) 0 0 (fun _ => 0) = none :=
  sample_pagerank_zero_samples corpusAB (17/20) 0 (fun _ => 0) (by decide)
    (by norm_num) (by norm_num)

/-- C7: for every non-empty corpus, damping in (0,1), n ≥ 1 and every
outcome of the random draws, sample_pagerank returns each page's visit count
over the n steps divided by n; the counts total n, so the returned values
sum to exactly 1. -/
theorem sample_pagerank_frequencies (c : Corpus) (d : ℚ) (n : ℕ) (start : ℕ)
    (pick : ℕ → ℕ) (hne : c.pages ≠ []) (hn : 1 ≤ n) (hd0 : 0 < d) (hd1 : d < 1)
    (hstart : start ∈ c.pages) (hpick : ∀ i, pick i ∈ c.pages) :
    sample_pagerank c d n start pick =
      some (c.pages, fun p => ((walkCounts pick 0 start (fun _ => 0) n p : ℕ) : ℚ) / (n : ℚ)) ∧
    ∑ p ∈ c.pageSet, walkCounts pick 0 start (fun _ => 0) n p = n ∧
    ∑ p ∈ c.pageSet, ((walkCounts pick 0 start (fun _ => 0) n p : ℕ) : ℚ) / (n : ℚ) = 1 := by
  have hn0 : n ≠ 0 := Nat.pos_iff_ne_zero.mp hn
  have hcounts : ∑ p ∈ c.pageSet, walkCounts pick 0 start (fun _ => 0) n p = n := by
    rw [walkCounts_sum c pick hpick n 0 start (fun _ => 0) hstart]
    simp
  refine ⟨?_, hcounts, ?_⟩
  · unfold sample_pagerank
    rw [if_neg hne, if_neg hn0]
  · rw [← Finset.sum_div, ← Nat.cast_sum, hcounts]
    exact div_self (Nat.cast_ne_zero.mpr hn0)

/-- C7 witness: a two step walk on the two page corpus visiting 0 then 1
gives each page count 1 and frequency 1/2, summing to 1. -/
theorem sample_pagerank_frequencies_witness :
    sample_pagerank corpusAB (17/20) 2 0 (fun _ => 1) =
      some (corpusAB.pages,
        fun p => ((walkCounts (fun _ => 1) 0 0 (fun _ => 0) 2 p : ℕ) : ℚ) / ((2 : ℕ) : ℚ)) ∧
    ∑ p ∈ corpusAB.pageSet, walkCounts (fun _ => 1) 0 0 (fun _ => 0) 2 p = 2 ∧
    ∑ p ∈ corpusAB.pageSet,
      ((walkCounts (fun _ => 1) 0 0 (fun _ => 0) 2 p : ℕ) : ℚ) / ((2 : ℕ) : ℚ) = 1 :=
  sample_pagerank_frequencies corpusAB (17/20) 2 0 (fun _ => 1) (by decide) (by decide)
    (by norm_num) (by norm_num) (by decide)
    (fun _ => by show (1 : ℕ) ∈ corpusAB.pages; decide)

/-- C4 counterexample: the empty corpus is a valid graph (vacuously), the
damping factor 17/20 lies in (0,1), yet iterate_pagerank returns a
distribution whose values sum to 0, not 1. -/
theorem iterate_pagerank_mass_counterexample :
    (∀ q ∈ corpusEmpty.pageSet, corpusEmpty.links q ⊆ corpusEmpty.pageSet) ∧
    iterate_pagerank corpusEmpty (17/20) 1 = some ([], initRank corpusEmpty) ∧
    ∑ p ∈ corpusEmpty.pageSet, initRank corpusEmpty p ≠ 1 := by
  refine ⟨by decide, rfl, ?_⟩
  show ¬ (0 : ℚ) = 1
  norm_num

/-- C4 amended: for every valid NON-EMPTY graph and damping in (0,1), one
relaxation pass maps a non-negative rank assignment of total mass 1 to a
non-negative rank assignment of total mass 1, and whatever distribution
iterate_pagerank returns has non-negative values of total mass exactly 1. -/
theorem iterate_pagerank_mass (c : Corpus) (d : ℚ)
    (hval : ∀ q ∈ c.pageSet, c.links q ⊆ c.pageSet) (hne : c.pages ≠ [])
    (hd0 : 0 < d) (hd1 : d < 1) :
    (∀ r : ℕ → ℚ, (∀ p ∈ c.pageSet, 0 ≤ r p) → ∑ p ∈ c.pageSet, r p = 1 →
      (∀ p ∈ c.pageSet, 0 ≤ newRank c d r p) ∧ ∑ p ∈ c.pageSet, newRank c d r p = 1) ∧
    ∀ (fuel : ℕ) (keys : List ℕ) (res : ℕ → ℚ),
      iterate_pagerank c d fuel = some (keys, res) →
      ∑ p ∈ c.pageSet, res p = 1 ∧ ∀ p ∈ c.pageSet, 0 ≤ res p := by
  have hN : 0 < c.N := List.length_pos.mpr hne
  constructor
  · intro r hpos hsum
    refine ⟨fun p _ => newRank_nonneg c r hd0.le hd1.le hpos p, ?_⟩
    rw [sum_newRank c d r hval hN, hsum]
    ring
  · intro fuel keys res h
    obtain ⟨-, hloop⟩ := iterate_pagerank_some_elim h
    obtain ⟨k, -, hres, -, -⟩ := iterLoop_some_spec c d fuel (initRank c) res hloop
    have hinit0 : ∀ p ∈ c.pageSet, 0 ≤ initRank c p := by
      intro p _
      unfold initRank
      positivity
    have hinv := iterate_newRank_inv c (initRank c) hval hN hd0.le hd1.le hinit0
      (sum_initRank c hN) k
    rw [hres]
    exact ⟨hinv.2, hinv.1⟩

/-- C4 amended witness: the C4 guarantees evaluated on the two page corpus
0 ↔ 1 with damping 17/20. -/
theorem iterate_pagerank_mass_witness :
    (∀ r : ℕ → ℚ, (∀ p ∈ corpusAB.pageSet, 0 ≤ r p) →
      ∑ p ∈ corpusAB.pageSet, r p = 1 →
      (∀ p ∈ corpusAB.pageSet, 0 ≤ newRank corpusAB (17/20) r p) ∧
      ∑ p ∈ corpusAB.pageSet, newRank corpusAB (17/20) r p = 1) ∧
    ∀ (fuel : ℕ) (keys : List ℕ) (res : ℕ → ℚ),
      iterate_pagerank corpusAB (17/20) fuel = some (keys, res) →
      ∑ p ∈ corpusAB.pageSet, res p = 1 ∧ ∀ p ∈ corpusAB.pageSet, 0 ≤ res p :=
  iterate_pagerank_mass corpusAB (17/20) (by decide) (by decide) (by norm_num) (by norm_num)

/-- C10: when the loop first converges, iterate_pagerank returns the ranks
from before the final update: the returned assignment is an iterate `k` of
the update map such that one further synchronous update moves every page by
strictly less than 0.001, while no earlier iterate has that property; the
freshly computed final update is discarded, never returned. -/
theorem iterate_pagerank_returns_pre_update (c : Corpus) (d : ℚ) (fuel : ℕ)
    (keys : List ℕ) (res : ℕ → ℚ) (h : iterate_pagerank c d fuel = some (keys, res)) :
    keys = c.pages ∧
    (∀ p ∈ c.pageSet, |newRank c d res p - res p| < 1 / 1000) ∧
    ∃ k, res = (newRank c d)^[k] (initRank c) ∧
      ∀ j < k, ¬ ∀ p ∈ c.pageSet,
        |(newRank c d)^[j + 1] (initRank c) p - (newRank c d)^[j] (initRank c) p| < 1 / 1000 := by
  obtain ⟨hkeys, hloop⟩ := iterate_pagerank_some_elim h
  obtain ⟨k, -, hres, hconv, hmin⟩ := iterLoop_some_spec c d fuel (initRank c) res hloop
  refine ⟨hkeys, (convergedCheck_eq_true c res (newRank c d res)).mp hconv, k, hres, ?_⟩
  intro j hj hall
  have := hmin j hj
  rw [Bool.eq_false_iff] at this
  apply this
  rw [convergedCheck_eq_true]
  intro p hp
  exact hall p hp

/-- C10 witness: on the one page dangling corpus the first pass already
converges and the initial ranks are returned. -/
theorem iterate_pagerank_returns_pre_update_witness :
    ([0] : List ℕ) = corpusOne.pages ∧
    (∀ p ∈ corpusOne.pageSet,
      |newRank corpusOne (17/20) (initRank corpusOne) p - initRank corpusOne p| < 1 / 1000) ∧
    ∃ k, initRank corpusOne = (newRank corpusOne (17/20))^[k] (initRank corpusOne) ∧
      ∀ j < k, ¬ ∀ p ∈ corpusOne.pageSet,
        |(newRank corpusOne (17/20))^[j + 1] (initRank corpusOne) p -
          (newRank corpusOne (17/20))^[j] (initRank corpusOne) p| < 1 / 1000 :=
  iterate_pagerank_returns_pre_update corpusOne (17/20) 1 [0] (initRank corpusOne)
    (by norm_num [iterate_pagerank, iterLoop, convergedCheck, checkPages, newRank, initRank,
      corpusOne, Corpus.N, abs])

/-- C5: on every non-empty valid graph with damping in (0,1), the uncapped
relaxation loop of iterate_pagerank terminates: some finite fuel makes the
fuel-indexed loop return, because each pass contracts the total variation
distance between successive iterates by the factor d, so the 0.001
convergence threshold is eventually met. -/
theorem iterate_pagerank_terminates (c : Corpus) (d : ℚ)
    (hval : ∀ q ∈ c.pageSet, c.links q ⊆ c.pageSet) (hne : c.pages ≠ [])
    (hd0 : 0 < d) (hd1 : d < 1) :
    ∃ fuel, (iterate_pagerank c d fuel).isSome = true := by
  have hN : 0 < c.N := List.length_pos.mpr hne
  set u := newRank c d with hu
  set r0 := initRank c with hr0
  set C := dist1 c (u r0) r0 with hC
  have hC0 : 0 ≤ C := Finset.sum_nonneg fun p _ => abs_nonneg _
  have hCp : (0 : ℚ) < C + 1 := by linarith
  obtain ⟨k, hk⟩ := exists_pow_lt_of_lt_one (div_pos (by norm_num : (0:ℚ) < 1/1000) hCp) hd1
  have hstep : ∀ m : ℕ, dist1 c (u^[m + 1] r0) (u^[m] r0) ≤ d ^ m * C := by
    intro m
    induction m with
    | zero => simp
    | succ m ih =>
        have h1 : dist1 c (u^[m + 2] r0) (u^[m + 1] r0) ≤
            d * dist1 c (u^[m + 1] r0) (u^[m] r0) := by
          rw [Function.iterate_succ_apply' u (m + 1), Function.iterate_succ_apply' u m]
          exact dist1_newRank_le c _ _ hval hN hd0.le
        calc dist1 c (u^[m + 2] r0) (u^[m + 1] r0)
            ≤ d * dist1 c (u^[m + 1] r0) (u^[m] r0) := h1
          _ ≤ d * (d ^ m * C) := mul_le_mul_of_nonneg_left ih hd0.le
          _ = d ^ (m + 1) * C := by ring
  have hlt : dist1 c (u^[k + 1] r0) (u^[k] r0) < 1 / 1000 := by
    calc dist1 c (u^[k + 1] r0) (u^[k] r0) ≤ d ^ k * C := hstep k
      _ ≤ d ^ k * (C + 1) := mul_le_mul_of_nonneg_left (by linarith) (pow_nonneg hd0.le k)
      _ < ((1 / 1000) / (C + 1)) * (C + 1) := mul_lt_mul_of_pos_right hk hCp
      _ = 1 / 1000 := div_mul_cancel₀ _ (ne_of_gt hCp)
  have hconv : convergedCheck c (u^[k] r0) (u (u^[k] r0)) = true := by
    rw [convergedCheck_eq_true]
    intro p hp
    have h2 : |u (u^[k] r0) p - u^[k] r0 p| ≤ dist1 c (u (u^[k] r0)) (u^[k] r0) := by
      unfold dist1
      exact Finset.single_le_sum (f := fun q => |u (u^[k] r0) q - u^[k] r0 q|)
        (fun q _ => abs_nonneg _) hp
    have h3 : dist1 c (u (u^[k] r0)) (u^[k] r0) = dist1 c (u^[k + 1] r0) (u^[k] r0) := by
      rw [Function.iterate_succ_apply']
    rw [h3] at h2
    exact lt_of_le_of_lt h2 hlt
  have hsome := iterLoop_isSome c d (k + 1) k r0 (Nat.lt_succ_self k) hconv
  refine ⟨k + 1, ?_⟩
  unfold iterate_pagerank
  cases hi : iterLoop c d (k + 1) (initRank c) with
  | none => rw [hr0, hi] at hsome; exact absurd hsome (by simp)
  | some r => rfl

/-- C5 witness: the loop terminates on the two page corpus 0 ↔ 1 with
damping 17/20. -/
theorem iterate_pagerank_terminates_witness :
    ∃ fuel, (iterate_pagerank corpusAB (17/20) fuel).isSome = true :=
  iterate_pagerank_terminates corpusAB (17/20) (by decide) (by decide)
    (by norm_num) (by norm_num)

